import Mathlib

/-!
# Verification of the TaskManager local text-analysis and enhancement engine

Shallow embedding of the Python sources `t5_task_analyzer.py` and
`t5_text_enhancer.py`.  Text is modelled as `List Char` (Python `str`);
the external T5 inference library is modelled as an abstract environment
(`ModelEnv`): a flag saying whether the model/tokenizer are loaded and a
function giving, for each prompt and generation parameters, the outcome of
the raw `model.generate` + `decode` call (`none` models a raised
exception).  Tokenizers are modelled as abstract token-counting functions.
All definitions follow the Python control flow line by line.
-/

namespace TaskManager

/-- Python ASCII whitespace class `\s` (` `, `\t`, `\n`, `\r`, `\x0b`, `\x0c`). -/
def isPyWs (c : Char) : Bool :=
  c = ' ' || c = '\t' || c = '\n' || c = '\r' || c = '\x0b' || c = '\x0c'

/-- Python word-character class `\w` (ASCII fragment: alphanumerics and underscore). -/
def isWordChar (c : Char) : Bool :=
  c.isAlphanum || c = '_'

/-- Python `str.lower()` on ASCII text. -/
def lowerL (l : List Char) : List Char :=
  l.map Char.toLower

/-- Python substring test `needle in hay`: the needle is a prefix of some
suffix of the haystack. -/
def containsSub : List Char → List Char → Bool
  | n, [] => n.isEmpty
  | n, c :: rest => n.isPrefixOf (c :: rest) || containsSub n rest

/-- Python `str.strip()`: drop leading and trailing whitespace. -/
def stripWsEnds (l : List Char) : List Char :=
  ((l.dropWhile isPyWs).reverse.dropWhile isPyWs).reverse

/-- Helper for `re.sub(r"\s+", " ", text)`: the Boolean records whether the
previous emitted character came from a whitespace run. -/
def collapseWsAux : Bool → List Char → List Char
  | _, [] => []
  | prevWs, c :: rest =>
    if isPyWs c then
      if prevWs then collapseWsAux true rest
      else ' ' :: collapseWsAux true rest
    else c :: collapseWsAux false rest

/-- `re.sub(r"\s+", " ", text)`: collapse every whitespace run to one space. -/
def collapseWs (l : List Char) : List Char :=
  collapseWsAux false l

/-- Characters kept by `re.sub(r"[^\w\s\-\.\,\!\?\:\;\@\#\$\%\(\)]", "", text)`. -/
def isAllowedChar (c : Char) : Bool :=
  isWordChar c || isPyWs c ||
  c = '-' || c = '.' || c = ',' || c = '!' || c = '?' || c = ':' ||
  c = ';' || c = '@' || c = '#' || c = '$' || c = '%' || c = '(' || c = ')'

/-- Terminal-punctuation test (`.`, `!` or `?`), the condition of the
fallback enhancement's final `if`. -/
def isTermChar (c : Char) : Bool :=
  c = '.' || c = '!' || c = '?'

namespace Analyzer

/-- Generation parameters of `TaskAnalyzer._generate_text`
(`max_new_tokens`, `temperature`, `num_beams`). -/
structure GenParams where
  maxNewTokens : Nat
  temperature : ℚ
  numBeams : Nat
deriving DecidableEq

/-- Abstract model environment: `loaded` says whether `self.model` and
`self.tokenizer` are non-`None`; `gen` is the outcome of the raw
tokenize/`model.generate`/decode sequence on a (preprocessed) prompt,
`none` modelling a raised exception. -/
structure ModelEnv where
  loaded : Bool
  gen : List Char → GenParams → Option (List Char)

/-- `TaskAnalyzer._preprocess_text`: collapse whitespace runs to a single
space, remove characters outside the allow-list, then `strip()`. -/
def preprocess_text (text : List Char) : List Char :=
  stripWsEnds ((collapseWs text).filter isAllowedChar)

/-- `TaskAnalyzer._fallback_generation`: keyword-dispatched canned outputs. -/
def fallback_generation (prompt : List Char) : List Char :=
  let lp := lowerL prompt
  if containsSub "summarize:".data lp then
    "Task requires attention. Please review details.".data
  else if containsSub "priority".data lp then "medium".data
  else if containsSub "category".data lp then "general".data
  else if containsSub "deadline".data lp then "No specific deadline found".data
  else if containsSub "next steps".data lp then
    "Review task details and take appropriate action".data
  else if containsSub "effort".data lp then "moderate".data
  else "Unable to process request".data

/-- `TaskAnalyzer._generate_text`: fallback when the model is absent, when
the underlying call raises (modelled by `none`), or when the decoded output
has fewer than 3 characters; the decoded output otherwise. -/
def generate_text (env : ModelEnv) (prompt : List Char) (p : GenParams) : List Char :=
  if !env.loaded then fallback_generation prompt
  else
    let prompt2 := preprocess_text prompt
    match env.gen prompt2 p with
    | none => fallback_generation prompt2
    | some out => if out.length < 3 then fallback_generation prompt2 else out

/-- The urgency keyword table of `TaskAnalyzer.classify_priority`. -/
def urgent_keywords : List (List Char) :=
  ["urgent".data, "asap".data, "critical".data, "immediately".data,
   "blocking".data, "emergency".data, "high priority".data, "important".data]

/-- Whether some urgency keyword occurs in the lowercased text. -/
def hasUrgentKeyword (text : List Char) : Bool :=
  urgent_keywords.any (fun k => containsSub k (lowerL text))

/-- `TaskAnalyzer.classify_priority`: urgency-keyword short-circuit to
`"high"`, otherwise a T5 call whose output is mapped onto
high/low/medium. -/
def classify_priority (env : ModelEnv) (text : List Char) : List Char :=
  if hasUrgentKeyword text then "high".data
  else
    let prompt := "classify the priority of this task as high, medium, or low: ".data ++ text
    let result := generate_text env prompt ⟨10, 3/10, 4⟩
    let rl := lowerL result
    if containsSub "high".data rl then "high".data
    else if containsSub "low".data rl then "low".data
    else "medium".data

/-- Date-separator class (slash or dash) of the deadline regexes. -/
def isDateSep (c : Char) : Bool :=
  c = '/' || c = '-'

/-- Greedy candidates for `\d{1,2}`: the two-digit split first (regex
backtracking order), then the one-digit split. -/
def digitCands : List Char → List (List (Char) × List Char)
  | [] => []
  | [a] => if a.isDigit then [([a], [])] else []
  | a :: b :: rest =>
    if a.isDigit then
      if b.isDigit then [([a, b], rest), ([a], b :: rest)]
      else [([a], b :: rest)]
    else []

/-- Exactly `n` digits from the front, or `none`. -/
def takeNDigits : Nat → List Char → Option (List Char × List Char)
  | 0, l => some ([], l)
  | _ + 1, [] => none
  | n + 1, c :: rest =>
    if c.isDigit then (takeNDigits n rest).map (fun p => (c :: p.1, p.2)) else none

/-- The date sub-pattern `\d{1,2}[SEP]\d{1,2}(?:[SEP]\d{2,4})?` with the
regex backtracking order; returns the matched text and the rest. -/
def matchDateFrom (l : List Char) : Option (List Char × List Char) :=
  (digitCands l).findSome? (fun p1 =>
    match p1.2 with
    | [] => none
    | s :: r2 =>
      if isDateSep s then
        (digitCands r2).findSome? (fun p2 =>
          match p2.2 with
          | [] => some (p1.1 ++ [s] ++ p2.1, [])
          | s2 :: r4 =>
            if isDateSep s2 then
              match takeNDigits 4 r4 <|> takeNDigits 3 r4 <|> takeNDigits 2 r4 with
              | some p3 => some (p1.1 ++ [s] ++ p2.1 ++ [s2] ++ p3.1, p3.2)
              | none => some (p1.1 ++ [s] ++ p2.1, p2.2)
            else some (p1.1 ++ [s] ++ p2.1, p2.2))
      else none)

/-- Pattern `due (?:on |by |)(DATE)` anchored at the current position;
returns the captured group. -/
def p1At (l : List Char) : Option (List Char) :=
  if "due ".data.isPrefixOf l then
    let r := l.drop 4
    (if "on ".data.isPrefixOf r then (matchDateFrom (r.drop 3)).map (·.1) else none) <|>
    (if "by ".data.isPrefixOf r then (matchDateFrom (r.drop 3)).map (·.1) else none) <|>
    (matchDateFrom r).map (·.1)
  else none

/-- Pattern `deadline[:\s]+(DATE)` anchored at the current position. -/
def p2At (l : List Char) : Option (List Char) :=
  if "deadline".data.isPrefixOf l then
    let r := l.drop 8
    let sep := r.takeWhile (fun c => c = ':' || isPyWs c)
    if sep.isEmpty then none
    else (matchDateFrom (r.drop sep.length)).map (·.1)
  else none

/-- Pattern `by (DATE)` anchored at the current position. -/
def p3At (l : List Char) : Option (List Char) :=
  if "by ".data.isPrefixOf l then (matchDateFrom (l.drop 3)).map (·.1)
  else none

/-- Alternatives of the relative-date pattern, in regex order. -/
def relAlternatives : List (List Char) :=
  ["today".data, "tomorrow".data, "next week".data, "this week".data,
   "monday".data, "tuesday".data, "wednesday".data, "thursday".data, "friday".data]

/-- Pattern `(today|tomorrow|next week|this week|monday|...|friday)`
anchored at the current position. -/
def p4At (l : List Char) : Option (List Char) :=
  relAlternatives.findSome? (fun a => if a.isPrefixOf l then some a else none)

/-- Pattern `(\d{1,2})\s*(days?|weeks?|months?)\s*(?:from now)?` anchored at
the current position; the captured group is the digit run. -/
def p5At (l : List Char) : Option (List Char) :=
  (digitCands l).findSome? (fun p =>
    let r := p.2.dropWhile isPyWs
    if "day".data.isPrefixOf r || "week".data.isPrefixOf r ||
       "month".data.isPrefixOf r then some p.1
    else none)

/-- `re.search`: try the anchored matcher at every position, left to right. -/
def searchPat (patAt : List Char → Option (List Char)) : List Char → Option (List Char)
  | [] => patAt []
  | c :: rest => patAt (c :: rest) <|> searchPat patAt rest

/-- `TaskAnalyzer.extract_deadlines`.  Dates are modelled as day ordinals
(`Nat`) with the convention that day `d` has Python weekday `d % 7`
(Monday = 0); `iso` is the `strftime("%Y-%m-%d")` rendering and `today` is
`datetime.now()`.  The five regex patterns are tried in order, each over
the whole lowercased text; relative keywords are resolved against `today`
(`this week` resolving to `(4 - weekday) % 7` days ahead, the upcoming
Friday); otherwise the matched text is returned; with no match at all, a
T5 call is attempted. -/
def extract_deadlines (env : ModelEnv) (iso : Nat → List Char) (today : Nat)
    (text : List Char) : Option (List Char) :=
  let tl := lowerL text
  match searchPat p1At tl <|> searchPat p2At tl <|> searchPat p3At tl <|>
        searchPat p4At tl <|> searchPat p5At tl with
  | some dt =>
    if dt = "today".data then some (iso today)
    else if dt = "tomorrow".data then some (iso (today + 1))
    else if dt = "next week".data then some (iso (today + 7))
    else if dt = "this week".data then some (iso (today + (11 - today % 7) % 7))
    else some dt
  | none =>
    let result := generate_text env
      ("extract the deadline date from this text: ".data ++ text) ⟨20, 3/10, 4⟩
    if result ≠ [] ∧ result ≠ "No deadline found".data then some result else none

/-- End-of-sentence test for the split lookbehind `(?<=[.!?])`; the first
argument is the reversed text consumed so far, so its head is the
previously consumed character. -/
def sentEnd : List Char → Bool
  | [] => false
  | p :: _ => p = '.' || p = '!' || p = '?'

mutual

/-- Scanner for `re.split(r"(?<=[.!?])\s+", text)`: `cur` is the reversed
current sentence; a whitespace character after `.`, `!` or `?` ends the
sentence and starts consuming the whitespace run. -/
def sentSplitGo (cur : List Char) : List Char → List (List Char)
  | [] => [cur.reverse]
  | c :: rest =>
    if isPyWs c && sentEnd cur then cur.reverse :: sentSplitSkip rest
    else sentSplitGo (c :: cur) rest

/-- Consume the remainder of the `\s+` separator run; a separator ending the
text leaves a final empty sentence, as Python's `re.split` does. -/
def sentSplitSkip : List Char → List (List Char)
  | [] => [[]]
  | c :: rest => if isPyWs c then sentSplitSkip rest else sentSplitGo [c] rest

end

/-- `re.split(r"(?<=[.!?])\s+", text)`. -/
def sentSplit (text : List Char) : List (List Char) :=
  sentSplitGo [] text

/-- Python `" ".join(chunk)`. -/
def joinSp : List (List Char) → List Char
  | [] => []
  | [g] => g
  | g :: g2 :: rest => g ++ ' ' :: joinSp (g2 :: rest)

/-- The sentence-accumulation loop of `TaskAnalyzer._chunk_text`:
`chunks` is the output accumulator, `cur` the running chunk (its
sentences), `curLen` the running token count.  A sentence that would
overflow the budget seals the current chunk and reseeds with that
sentence; if the running chunk is empty at that point, the sentence is
truncated to 500 characters instead. -/
def chunkLoop (tok : List Char → Nat) (B : Nat) :
    List (List Char) → List (List Char) → List (List Char) → Nat → List (List Char)
  | [], chunks, cur, _ =>
    if cur.isEmpty then chunks else chunks ++ [joinSp cur]
  | s :: rest, chunks, cur, curLen =>
    let sl := tok s
    if B < curLen + sl then
      if cur.isEmpty then chunkLoop tok B rest (chunks ++ [s.take 500]) [] 0
      else chunkLoop tok B rest (chunks ++ [joinSp cur]) [s] sl
    else chunkLoop tok B rest chunks (cur ++ [s]) (curLen + sl)

/-- `TaskAnalyzer._chunk_text`.  `hasTok` is whether `self.tokenizer` is
loaded; `tokFull` counts tokens of `tokenizer.encode(text)` (with special
tokens) and `tok` those of `tokenizer.encode(s, add_special_tokens=False)`. -/
def chunk_text (hasTok : Bool) (tokFull tok : List Char → Nat) (B : Nat)
    (text : List Char) : List (List Char) :=
  if !hasTok then [text.take 1000]
  else if tokFull text ≤ B then [text]
  else chunkLoop tok B (sentSplit text) [] [] 0

/-- Remove every whitespace character: the reading of "ignoring inserted
join-whitespace" under which chunk concatenation is compared with the
original text (the sentence split itself consumes only whitespace). -/
def stripAllWs (l : List Char) : List Char :=
  l.filter (fun c => !isPyWs c)

/-- A concrete tokenizer for witnesses and counterexamples: one token per
maximal non-whitespace run (a word-count tokenizer). -/
def wordTok (l : List Char) : Nat :=
  ((l.splitOnP isPyWs).filter (fun w => !w.isEmpty)).length

/-- Claim C2 as stated, at one tokenizer/budget/text instance: below
budget the text comes back as the single chunk; above budget every chunk
is within budget except the 500-character truncation of a single
oversized sentence; and chunk concatenation, ignoring whitespace,
reconstructs the original. -/
def C2ClaimAt (tokFull tok : List Char → Nat) (B : Nat) (text : List Char) : Prop :=
  (tokFull text ≤ B → chunk_text true tokFull tok B text = [text]) ∧
  (B < tokFull text → ∀ c ∈ chunk_text true tokFull tok B text,
    tok c ≤ B ∨ ∃ s ∈ sentSplit text, B < tok s ∧ c = s.take 500) ∧
  stripAllWs (List.flatten (chunk_text true tokFull tok B text)) = stripAllWs text

/-- Counterexample input for C2: an oversized first sentence (600
one-character words), a small middle sentence, and an oversized last
sentence. -/
def cexText : List Char :=
  joinSp (List.replicate 600 ['x']) ++ ". a b. ".data ++
    joinSp (List.replicate 600 ['y']) ++ ['.']

end Analyzer

namespace Enhancer

/-- The `EnhancementStyle` enum. -/
inductive Style where
  | professional
  | technical
  | executive
  | business_value
  | casual
  | formal
deriving DecidableEq

/-- The `.value` string of each `EnhancementStyle` member. -/
def Style.value : Style → List Char
  | .professional => "professional".data
  | .technical => "technical".data
  | .executive => "executive".data
  | .business_value => "business_value".data
  | .casual => "casual".data
  | .formal => "formal".data

/-- `TextEnhancer.PROMPT_TEMPLATES`, with the Python `{text}` substitution
applied.  Every enum member has a template, so the dictionary is total. -/
def promptTemplate (s : Style) (text : List Char) : List Char :=
  match s with
  | .professional =>
    "Rewrite this text to sound more professional and formal: ".data ++ text
  | .technical =>
    "Expand this with technical details and industry terminology: ".data ++ text
  | .executive =>
    "Transform this into executive summary format: ".data ++ text
  | .business_value =>
    "Rewrite focusing on business value and ROI: ".data ++ text
  | .casual =>
    "Make this text more casual and approachable: ".data ++ text
  | .formal =>
    "Rewrite in highly formal business language: ".data ++ text

/-- `TextEnhancer._get_cache_key`: the md5 digest of
`f"{text}:{style}:{context}"`.  The digest is modelled as the hashed
content itself (md5 as an injective function), which preserves exactly the
key-identity structure the cache relies on. -/
def get_cache_key (text style context : List Char) : List Char :=
  text ++ ":".data ++ style ++ ":".data ++ context

/-- The mutable state of a `TextEnhancer` instance: the stored (and never
consulted) `max_cache_size`, the `_enhancement_cache` dict (an
insertion-ordered association list, as Python dicts are), and the
`metrics` counters. -/
structure EnhState where
  cacheSize : Nat
  cache : List (List Char × List Char)
  total : Nat
  hits : Nat
deriving DecidableEq

/-- `TextEnhancer.__init__` with `max_cache_size = k`. -/
def initState (k : Nat) : EnhState :=
  { cacheSize := k, cache := [], total := 0, hits := 0 }

/-- Dictionary lookup in `_enhancement_cache`. -/
def cacheLookup (st : EnhState) (key : List Char) : Option (List Char) :=
  st.cache.lookup key

/-- The abstract generation boundary of the enhancer: the behaviour of
`TextEnhancer._generate_text prompt, temperature=t` (which in the source
never raises — it catches exceptions and falls back internally); only the
temperature parameter varies across the flows under verification, the
other generation parameters being the fixed defaults. -/
def Gen := List Char → ℚ → List Char

/-- The shared body of the cached enhancement methods: look the key up in
the cache (a hit bumps `cache_hits` and short-circuits), otherwise
generate from the prompt, store the result under the key and bump
`total_enhancements`. -/
def cachedEnhance (gen : Gen) (temp : ℚ) (key prompt : List Char)
    (st : EnhState) : List Char × EnhState :=
  match cacheLookup st key with
  | some v => (v, { st with hits := st.hits + 1 })
  | none =>
    let enhanced := gen prompt temp
    (enhanced,
     { st with cache := st.cache ++ [(key, enhanced)], total := st.total + 1 })

/-- `TextEnhancer.make_professional`. -/
def make_professional (gen : Gen) (temp : ℚ) (text : List Char)
    (st : EnhState) : List Char × EnhState :=
  cachedEnhance gen temp (get_cache_key text "professional".data [])
    (promptTemplate .professional text) st

/-- `TextEnhancer.add_technical_depth`. -/
def add_technical_depth (gen : Gen) (temp : ℚ) (text : List Char)
    (st : EnhState) : List Char × EnhState :=
  cachedEnhance gen temp (get_cache_key text "technical".data [])
    (promptTemplate .technical text) st

/-- `TextEnhancer.make_executive_summary`. -/
def make_executive_summary (gen : Gen) (temp : ℚ) (text : List Char)
    (st : EnhState) : List Char × EnhState :=
  cachedEnhance gen temp (get_cache_key text "executive".data [])
    (promptTemplate .executive text) st

/-- `TextEnhancer.add_business_value`. -/
def add_business_value (gen : Gen) (temp : ℚ) (text : List Char)
    (st : EnhState) : List Char × EnhState :=
  cachedEnhance gen temp (get_cache_key text "business_value".data [])
    (promptTemplate .business_value text) st

/-- `TextEnhancer.adjust_tone`: every enum member is a `PROMPT_TEMPLATES`
key, so the template branch always applies. -/
def adjust_tone (gen : Gen) (temp : ℚ) (text : List Char) (tone : Style)
    (st : EnhState) : List Char × EnhState :=
  cachedEnhance gen temp (get_cache_key text tone.value [])
    (promptTemplate tone text) st

/-- The optional `context` argument of `enhance_text_for_task_manager`. -/
structure Context where
  priority : List Char
  category : List Char

/-- `enhance_text_for_task_manager`: builds a fresh `TextEnhancer` (fresh
empty state) and dispatches on the context. -/
def enhance_text_for_task_manager (gen : Gen) (text : List Char)
    (context : Option Context) : List Char :=
  let st := initState 1000
  match context with
  | some ctx =>
    let priority := lowerL ctx.priority
    let category := lowerL ctx.category
    if priority = "high".data ∨ priority = "critical".data then
      (make_executive_summary gen (8/10) text st).1
    else if category = "bug".data ∨ category = "feature".data ∨
            category = "development".data then
      (add_technical_depth gen (8/10) text st).1
    else if category = "business".data ∨ category = "strategy".data ∨
            category = "planning".data then
      (add_business_value gen (8/10) text st).1
    else (make_professional gen (8/10) text st).1
  | none => (make_professional gen (8/10) text st).1

/-- The per-variant dispatch inside `enhance_with_confidence`. -/
def ewcStep (gen : Gen) (style : Style) (temp : ℚ) (text : List Char)
    (st : EnhState) : List Char × EnhState :=
  match style with
  | .professional => make_professional gen temp text st
  | .technical => add_technical_depth gen temp text st
  | _ => adjust_tone gen temp text style st

/-- The variant-generation loop of `enhance_with_confidence`: `k` variants
remain, `i` is the current index, and the temperature is `0.7 + i * 0.1`. -/
def ewcLoop (gen : Gen) (style : Style) (text : List Char) :
    Nat → Nat → EnhState → List (List Char) × EnhState
  | 0, _, st => ([], st)
  | k + 1, i, st =>
    let temp : ℚ := 7/10 + i * (1/10)
    let p := ewcStep gen style temp text st
    let rec' := ewcLoop gen style text k (i + 1) p.2
    (p.1 :: rec'.1, rec'.2)

/-- The variants of one `enhance_with_confidence(text, style, n)` call. -/
def ewcVariants (gen : Gen) (style : Style) (text : List Char) (n : Nat)
    (st : EnhState) : List (List Char) :=
  (ewcLoop gen style text n 0 st).1

/-- The professional-indicator keywords of `enhance_with_confidence`. -/
def professional_words : List (List Char) :=
  ["implement".data, "enhance".data, "optimize".data, "strategic".data,
   "comprehensive".data, "robust".data]

/-- The heuristic variant score of `enhance_with_confidence`: proximity of
the variant length to 1.5x the original length, 10 per professional
keyword present, 5 for a capitalized first character and 5 for a final
`.` or `!`. -/
def scoreVariant (text variant : List Char) : ℚ :=
  let ideal : ℚ := (text.length : ℚ) * (3/2)
  let lengthDiff : ℚ := |(variant.length : ℚ) - ideal|
  let base : ℚ := max 0 (100 - lengthDiff)
  let kw : ℚ := 10 * ((professional_words.filter
    (fun w => containsSub (lowerL w) (lowerL variant))).length : ℚ)
  let capBonus : ℚ := if h : variant ≠ [] then
      (if (variant.head h).isUpper then 5 else 0) else 0
  let endBonus : ℚ := match variant.getLast? with
    | some c => if c = '.' ∨ c = '!' then 5 else 0
    | none => 0
  base + kw + capBonus + endBonus

/-- Python `max(scores)` on a non-empty list (left fold from the head). -/
def listMax : List ℚ → ℚ
  | [] => 0
  | x :: xs => xs.foldl max x

/-- `TextEnhancer.enhance_with_confidence`: generate `n` variants with
varied temperature, score each, pick the first variant attaining the
maximal score, and normalize the confidence by `min(100, max/2) / 100`.
`none` models the `ValueError` Python's `max` raises on zero variants. -/
def enhance_with_confidence (gen : Gen) (style : Style) (text : List Char)
    (n : Nat) (st : EnhState) : Option (List Char × ℚ) × EnhState :=
  let p := ewcLoop gen style text n 0 st
  match p.1 with
  | [] => (none, p.2)
  | _ :: _ =>
    let scores := p.1.map (scoreVariant text)
    let m := listMax scores
    let bestIdx := scores.findIdx (fun s => s = m)
    (some (p.1.getD bestIdx [], min 100 (m / 2) / 100), p.2)

/-- One pass of `re.sub("^PAT:\s*", "", text, flags=IGNORECASE)` for a
fixed pattern string: case-insensitively strip the pattern from the front
together with the following whitespace run, else leave the text unchanged. -/
def stripFixedPat (pat s : List Char) : List Char :=
  if (s.take pat.length).map Char.toLower = pat.map Char.toLower then
    (s.drop pat.length).dropWhile isPyWs
  else s

/-- The lazy `.*?:` tail of the seventh prompt pattern: consume up to and
including the first `:` on the current line (`.` does not cross a
newline). -/
def scanToColon : List Char → Option (List Char)
  | [] => none
  | c :: rest =>
    if c = ':' then some rest
    else if c = '\n' then none
    else scanToColon rest

/-- `re.sub(r"^As a \w+ professional, enhance this text.*?:\s*", "", text,
flags=IGNORECASE)`. -/
def stripPat7 (s : List Char) : List Char :=
  if (s.take 5).map Char.toLower = "as a ".data then
    let r := s.drop 5
    let w := r.takeWhile isWordChar
    if w.isEmpty then s
    else
      let r2 := r.drop w.length
      let tail7 := " professional, enhance this text".data
      if (r2.take tail7.length).map Char.toLower = tail7 then
        match scanToColon (r2.drop tail7.length) with
        | some rest => rest.dropWhile isPyWs
        | none => s
      else s
  else s

/-- Prompt patterns 1-6 of `_fallback_enhancement` (fixed strings). -/
def promptPatsA : List (List Char) :=
  ["Rewrite this text to sound more professional and formal:".data,
   "Expand this with technical details and industry terminology:".data,
   "Transform this into executive summary format:".data,
   "Rewrite focusing on business value and ROI:".data,
   "Make this text more casual and approachable:".data,
   "Rewrite in highly formal business language:".data]

/-- Prompt patterns 8-9 of `_fallback_enhancement` (fixed strings). -/
def promptPatsB : List (List Char) :=
  ["Improve the clarity and readability of this text while maintaining its meaning:".data,
   "Text to enhance:".data]

/-- The prompt-instruction stripping loop, in source order (patterns 1-6,
the seventh `As a ...` pattern, then patterns 8-9). -/
def stripPrompts (s : List Char) : List Char :=
  promptPatsB.foldl (fun acc p => stripFixedPat p acc)
    (stripPat7 (promptPatsA.foldl (fun acc p => stripFixedPat p acc) s))

/-- The multi-line prompt handling: when the text holds both a newline and
a colon, keep only the part after the last colon, stripped. -/
def colonSplitStage (s : List Char) : List Char :=
  if s.contains '\n' && s.contains ':' then
    stripWsEnds (s.reverse.takeWhile (fun c => c ≠ ':')).reverse
  else s

/-- Case-insensitive match of the word `w` at the front of `s`. -/
def matchesCI (w s : List Char) : Bool :=
  (s.take w.length).map Char.toLower = w.map Char.toLower

/-- The trailing `\b` of a whole-word pattern: the character after the
matched region, if any, is not a word character. -/
def nextNonWord (w s : List Char) : Bool :=
  match (s.drop w.length).head? with
  | some d => !isWordChar d
  | none => true

/-- Scanner of `re.sub(r"\bWORD\b", repl, s, flags=IGNORECASE)`: fuel-based
recursion (one unit per character, so `s.length` fuel always suffices);
`prevW` is whether the previous character of the original text is a word
character (the leading `\b`).  After a replacement, scanning resumes past
the matched region, whose last character is a word character. -/
def subWordF (w r : List Char) : Nat → Bool → List Char → List Char
  | _, _, [] => []
  | 0, _, s => s
  | f + 1, prevW, c :: rest =>
    if !prevW && matchesCI w (c :: rest) && nextNonWord w (c :: rest) then
      r ++ subWordF w r f true (rest.drop (w.length - 1))
    else c :: subWordF w r f (isWordChar c) rest

/-- `re.sub(r"\bWORD\b", repl, s, flags=IGNORECASE)` for the word table
(every table pattern begins and ends with a word character). -/
def subWordCI (w r s : List Char) : List Char :=
  subWordF w r s.length false s

/-- The casual-to-professional replacement table of
`_fallback_enhancement`, in source order. -/
def replacementTable : List (List Char × List Char) :=
  [("fix".data, "resolve".data),
   ("bug".data, "defect".data),
   ("make".data, "implement".data),
   ("add".data, "integrate".data),
   ("delete".data, "remove".data),
   ("change".data, "modify".data),
   ("update".data, "enhance".data),
   ("quick".data, "efficient".data),
   ("fast".data, "expeditious".data),
   ("slow".data, "performance-impacted".data),
   ("broken".data, "non-functional".data),
   ("working on".data, "developing".data),
   ("build".data, "construct".data),
   ("improve".data, "optimize".data),
   ("new".data, "innovative".data),
   ("old".data, "legacy".data),
   ("simple".data, "streamlined".data),
   ("hard".data, "complex".data),
   ("easy".data, "intuitive".data),
   ("get".data, "obtain".data),
   ("set".data, "configure".data),
   ("run".data, "execute".data),
   ("test".data, "validate".data),
   ("check".data, "verify".data),
   ("find".data, "identify".data),
   ("show".data, "display".data),
   ("hide".data, "conceal".data),
   ("start".data, "initiate".data),
   ("stop".data, "terminate".data),
   ("user".data, "end-user".data),
   ("data".data, "information".data),
   ("file".data, "document".data),
   ("error".data, "exception".data),
   ("website".data, "web application".data),
   ("speed".data, "performance".data),
   ("login".data, "authentication".data),
   ("password".data, "credential".data),
   ("email".data, "electronic correspondence".data),
   ("dashboard".data, "executive interface".data),
   ("report".data, "analytical summary".data),
   ("feature".data, "capability".data),
   ("system".data, "infrastructure".data)]

/-- The ordered sequence of whole-word replacement passes. -/
def applyReplacements (s : List Char) : List Char :=
  replacementTable.foldl (fun acc p => subWordCI p.1 p.2 acc) s

/-- Python `result.startswith((p1, p2, ...))` (case-sensitive). -/
def startsWithAny (ps : List (List Char)) (s : List Char) : Bool :=
  ps.any (fun p => p.isPrefixOf s)

/-- The contextual-prefix rules of `_fallback_enhancement`: domain keywords
are looked for in the lowercased pre-replacement text, in a fixed
`elif` order, and the chosen prefix is prepended unless the current result
already starts with one of the rule's verbs. -/
def prefixStage (lowerText result : List Char) : List Char :=
  if containsSub "authentication".data lowerText ||
     containsSub "security".data lowerText ||
     containsSub "jwt".data lowerText then
    if !startsWithAny ["Implement".data, "Design".data, "Develop".data,
        "Engineer".data] result then
      "Engineer comprehensive ".data ++ result
    else result
  else if containsSub "performance".data lowerText ||
          containsSub "optimize".data lowerText then
    if !startsWithAny ["Optimize".data, "Enhance".data, "Improve".data] result then
      "Optimize ".data ++ result
    else result
  else if containsSub "dashboard".data lowerText ||
          containsSub "report".data lowerText ||
          containsSub "analytics".data lowerText then
    if !startsWithAny ["Design".data, "Develop".data, "Create".data] result then
      "Develop strategic ".data ++ result
    else result
  else if containsSub "fix".data lowerText || containsSub "bug".data lowerText ||
          containsSub "error".data lowerText ||
          containsSub "issue".data lowerText then
    if !startsWithAny ["Resolve".data, "Address".data, "Remediate".data] result then
      "Remediate critical ".data ++ result
    else result
  else if containsSub "implement".data lowerText ||
          containsSub "build".data lowerText ||
          containsSub "create".data lowerText then
    if !startsWithAny ["Engineer".data, "Architect".data, "Construct".data] result then
      "Architect and ".data ++ result
    else result
  else result

/-- `result = result[0].upper() + result[1:]` when the result is
non-empty. -/
def capStage : List Char → List Char
  | [] => []
  | c :: rest => c.toUpper :: rest

/-- The substrings whose presence suppresses the contextual suffix. -/
def suffixEndings : List (List Char) :=
  [".".data, "!".data, "?".data, "functionality".data, "system".data,
   "platform".data, "solution".data]

/-- The contextual suffix chosen from the lowercased pre-replacement
text, in the `elif` order of the source. -/
def chooseSuffix (lowerText : List Char) : List Char :=
  if containsSub "authentication".data lowerText ||
     containsSub "security".data lowerText then
    " following industry security best practices and compliance standards".data
  else if containsSub "performance".data lowerText then
    " to achieve optimal system performance and resource utilization".data
  else if containsSub "dashboard".data lowerText ||
          containsSub "interface".data lowerText then
    " with focus on user experience and data visualization excellence".data
  else if containsSub "api".data lowerText ||
          containsSub "integration".data lowerText then
    " ensuring seamless integration and API compatibility".data
  else if containsSub "database".data lowerText ||
          containsSub "data".data lowerText then
    " with emphasis on data integrity and scalability".data
  else " to meet business requirements and technical specifications".data

/-- The contextual-suffix stage: the suffix is appended only when the
result is shorter than 100 characters and holds none of the suppressing
substrings. -/
def suffixStage (lowerText result : List Char) : List Char :=
  if result.length < 100 &&
     !(suffixEndings.any (fun e => containsSub e result)) then
    result ++ chooseSuffix lowerText
  else result

/-- The final terminal-punctuation guarantee: append `.` when the
non-empty result does not already end in `.`, `!` or `?`. -/
def periodStage (result : List Char) : List Char :=
  match result.getLast? with
  | none => result
  | some c => if isTermChar c then result else result ++ ['.']

/-- `TextEnhancer._fallback_enhancement`: strip prompt instructions, apply
the replacement table, apply the contextual prefix rule, capitalize the
first character, append the contextual suffix when appropriate, and
guarantee terminal punctuation. -/
def fallback_enhancement (prompt : List Char) : List Char :=
  let text := colonSplitStage (stripPrompts prompt)
  let lowerText := lowerL text
  periodStage (suffixStage lowerText (capStage (prefixStage lowerText
    (applyReplacements text))))

/-- The same pipeline with the contextual-suffix stage removed; used to
state that re-running the fallback on its own output appends no
additional suffix. -/
def fallbackNoSuffix (prompt : List Char) : List Char :=
  let text := colonSplitStage (stripPrompts prompt)
  periodStage (capStage (prefixStage (lowerL text) (applyReplacements text)))

end Enhancer

/-! ## Theorems -/

namespace Analyzer

theorem fallback_generation_pos (prompt : List Char) :
    0 < (fallback_generation prompt).length := by
  simp only [fallback_generation]
  repeat' split
  all_goals decide

/-- C1: for every model environment and prompt (the empty and
pure-punctuation prompts included), `_generate_text` returns a non-empty
string, and in each failure mode — model/tokenizer not loaded, underlying
generation raising (modelled by `none`), or decoded output shorter than 3
characters — it returns the deterministic fallback's output instead of
propagating the failure.  The embedding is a total function, so no
exception escapes. -/
theorem generate_text_total (env : ModelEnv) (prompt : List Char) (p : GenParams) :
    0 < (generate_text env prompt p).length ∧
    (env.loaded = false → generate_text env prompt p = fallback_generation prompt) ∧
    (env.loaded = true → env.gen (preprocess_text prompt) p = none →
      generate_text env prompt p = fallback_generation (preprocess_text prompt)) ∧
    (∀ out, env.loaded = true → env.gen (preprocess_text prompt) p = some out →
      out.length < 3 →
      generate_text env prompt p = fallback_generation (preprocess_text prompt)) := by
  refine ⟨?_, ?_, ?_, ?_⟩
  · cases henv : env.loaded
    · simp only [generate_text, henv, Bool.not_false, if_true]
      exact fallback_generation_pos prompt
    · simp only [generate_text, henv, Bool.not_true, Bool.false_eq_true, if_false]
      cases hg : env.gen (preprocess_text prompt) p with
      | none =>
        simp only [hg]
        exact fallback_generation_pos (preprocess_text prompt)
      | some out =>
        simp only [hg]
        by_cases hlen : out.length < 3
        · simp only [if_pos hlen]
          exact fallback_generation_pos (preprocess_text prompt)
        · simp only [if_neg hlen]
          omega
  · intro h
    simp only [generate_text, h, Bool.not_false, if_true]
  · intro h hg
    simp only [generate_text, h, Bool.not_true, Bool.false_eq_true, if_false, hg]
  · intro out h hg hshort
    simp only [generate_text, h, Bool.not_true, Bool.false_eq_true, if_false, hg,
      if_pos hshort]

theorem generate_text_total_witness :
    generate_text ⟨false, fun _ _ => none⟩ "".data ⟨100, 7/10, 4⟩ =
      fallback_generation "".data ∧
    generate_text ⟨true, fun _ _ => none⟩ "hi".data ⟨100, 7/10, 4⟩ =
      fallback_generation (preprocess_text "hi".data) ∧
    generate_text ⟨true, fun _ _ => some "ab".data⟩ "hi".data ⟨100, 7/10, 4⟩ =
      fallback_generation (preprocess_text "hi".data) :=
  ⟨(generate_text_total _ _ _).2.1 rfl,
   (generate_text_total _ _ _).2.2.1 rfl rfl,
   (generate_text_total _ _ _).2.2.2 "ab".data rfl rfl (by decide)⟩

/-- C6: an urgency keyword forces `classify_priority` to return `"high"`
for every model environment (hence without any model generation); the
result is always one of high, medium, low; and on the concrete input
`"URGENT: server down"` the result is `"high"`. -/
theorem classify_priority_spec (env : ModelEnv) (text : List Char) :
    (hasUrgentKeyword text = true → classify_priority env text = "high".data) ∧
    (classify_priority env text = "high".data ∨
     classify_priority env text = "medium".data ∨
     classify_priority env text = "low".data) ∧
    classify_priority env "URGENT: server down".data = "high".data := by
  refine ⟨fun h => by simp [classify_priority, h], ?_, ?_⟩
  · simp only [classify_priority]
    split
    · exact Or.inl rfl
    · split
      · exact Or.inl rfl
      · split
        · exact Or.inr (Or.inr rfl)
        · exact Or.inr (Or.inl rfl)
  · have h : hasUrgentKeyword "URGENT: server down".data = true := by decide
    simp [classify_priority, h]

theorem classify_priority_spec_witness :
    hasUrgentKeyword "URGENT: server down".data = true ∧
    classify_priority ⟨false, fun _ _ => none⟩ "URGENT: server down".data =
      "high".data :=
  ⟨by decide,
   (classify_priority_spec ⟨false, fun _ _ => none⟩ "URGENT: server down".data).1
     (by decide)⟩

/-- C7: `extract_deadlines` resolves relative dates against the current
date: `"due by tomorrow"` gives the ISO rendering of the next day,
`"today"` the current day, `"next week"` the day seven days ahead, and
`"this week"` the upcoming Friday (a day less than a week ahead whose
Python weekday is 4), for every model environment, ISO renderer and
current date. -/
theorem extract_deadlines_relative (env : ModelEnv) (iso : Nat → List Char)
    (today : Nat) :
    extract_deadlines env iso today "due by tomorrow".data = some (iso (today + 1)) ∧
    extract_deadlines env iso today "today".data = some (iso today) ∧
    extract_deadlines env iso today "next week".data = some (iso (today + 7)) ∧
    (∃ k, k < 7 ∧ (today + k) % 7 = 4 ∧
      extract_deadlines env iso today "this week".data = some (iso (today + k))) := by
  refine ⟨rfl, rfl, rfl, (11 - today % 7) % 7, ?_, ?_, rfl⟩
  · exact Nat.mod_lt _ (by norm_num)
  · omega

theorem stripAllWs_nil : stripAllWs [] = [] := rfl

theorem stripAllWs_append (a b : List Char) :
    stripAllWs (a ++ b) = stripAllWs a ++ stripAllWs b :=
  List.filter_append _ _

theorem stripAllWs_joinSp : ∀ g : List (List Char),
    stripAllWs (joinSp g) = stripAllWs (List.flatten g) := by
  intro g
  induction g with
  | nil => rfl
  | cons a rest ih =>
    cases rest with
    | nil => simp [joinSp, List.flatten]
    | cons b rest' =>
      show stripAllWs (a ++ ' ' :: joinSp (b :: rest')) = _
      have hsp : a ++ ' ' :: joinSp (b :: rest') =
          a ++ ([' '] ++ joinSp (b :: rest')) := rfl
      rw [hsp, stripAllWs_append, stripAllWs_append]
      have hsp2 : stripAllWs [' '] = [] := rfl
      rw [hsp2, List.nil_append, ih]
      simp [List.flatten_cons, stripAllWs_append, List.append_assoc]

theorem chunkLoop_mem (tok : List Char → Nat) (B : Nat) (S : List (List Char)) :
    ∀ (ss chunks cur : List (List Char)) (curLen : Nat),
      (∀ s ∈ ss, s ∈ S) →
      (∀ c ∈ chunks,
        (∃ g, g ≠ [] ∧ c = joinSp g ∧ (g.map tok).sum ≤ B) ∨
        (∃ s ∈ S, c = s) ∨ (∃ s ∈ S, B < tok s ∧ c = s.take 500)) →
      (cur = [] ∨ (cur.map tok).sum ≤ B ∨ ∃ s ∈ S, cur = [s]) →
      curLen = (cur.map tok).sum →
      ∀ c ∈ chunkLoop tok B ss chunks cur curLen,
        (∃ g, g ≠ [] ∧ c = joinSp g ∧ (g.map tok).sum ≤ B) ∨
        (∃ s ∈ S, c = s) ∨ (∃ s ∈ S, B < tok s ∧ c = s.take 500) := by
  intro ss
  induction ss with
  | nil =>
    intro chunks cur curLen hss hchunks hcur hlen c hc
    unfold chunkLoop at hc
    split at hc
    · exact hchunks c hc
    · rename_i hne
      rcases List.mem_append.1 hc with hc1 | hc2
      · exact hchunks c hc1
      · have hcj : c = joinSp cur := by simpa using hc2
        rcases hcur with hnil | hsum | ⟨s, hsS, rfl⟩
        · rw [hnil] at hne
          exact absurd rfl hne
        · refine Or.inl ⟨cur, ?_, hcj, hsum⟩
          intro hx
          rw [hx] at hne
          exact absurd rfl hne
        · exact Or.inr (Or.inl ⟨s, hsS, by rw [hcj]; rfl⟩)
  | cons s rest ih =>
    intro chunks cur curLen hss hchunks hcur hlen c hc
    simp only [chunkLoop] at hc
    split at hc
    case isTrue hover =>
      split at hc
      case isTrue hemp =>
        have hcurnil : cur = [] := by simpa using hemp
        refine ih (chunks ++ [s.take 500]) [] 0
          (fun q hq => hss q (List.mem_cons_of_mem _ hq)) ?_ (Or.inl rfl) (by simp)
          c hc
        intro d hd
        rcases List.mem_append.1 hd with hd1 | hd2
        · exact hchunks d hd1
        · have hds : d = s.take 500 := by simpa using hd2
          refine Or.inr (Or.inr ⟨s, hss s (List.mem_cons_self _ _), ?_, hds⟩)
          rw [hcurnil] at hlen
          simp at hlen
          omega
      case isFalse hemp =>
        refine ih (chunks ++ [joinSp cur]) [s] (tok s)
          (fun q hq => hss q (List.mem_cons_of_mem _ hq)) ?_
          (Or.inr (Or.inr ⟨s, hss s (List.mem_cons_self _ _), rfl⟩)) (by simp)
          c hc
        intro d hd
        rcases List.mem_append.1 hd with hd1 | hd2
        · exact hchunks d hd1
        · have hdj : d = joinSp cur := by simpa using hd2
          rcases hcur with hnil | hsum | ⟨q, hqS, rfl⟩
          · rw [hnil] at hemp
            exact absurd rfl hemp
          · refine Or.inl ⟨cur, ?_, hdj, hsum⟩
            intro hx
            rw [hx] at hemp
            exact absurd rfl hemp
          · exact Or.inr (Or.inl ⟨q, hqS, by rw [hdj]; rfl⟩)
    case isFalse hfit =>
      refine ih chunks (cur ++ [s]) (curLen + tok s)
        (fun q hq => hss q (List.mem_cons_of_mem _ hq)) hchunks
        (Or.inr (Or.inl ?_)) ?_ c hc
      · rw [List.map_append, List.sum_append]
        simp only [List.map_cons, List.map_nil, List.sum_cons, List.sum_nil]
        omega
      · rw [List.map_append, List.sum_append]
        simp only [List.map_cons, List.map_nil, List.sum_cons, List.sum_nil]
        omega

theorem chunkLoop_content (tok : List Char → Nat) (B : Nat) :
    ∀ (ss chunks cur : List (List Char)) (curLen : Nat),
      (∀ s ∈ ss, tok s ≤ B) →
      curLen = (cur.map tok).sum →
      stripAllWs (List.flatten (chunkLoop tok B ss chunks cur curLen)) =
        stripAllWs (List.flatten chunks) ++ stripAllWs (List.flatten cur) ++
          stripAllWs (List.flatten ss) := by
  intro ss
  induction ss with
  | nil =>
    intro chunks cur curLen hss hlen
    unfold chunkLoop
    split
    case isTrue hemp =>
      have hcur : cur = [] := by simpa using hemp
      rw [hcur]
      simp [stripAllWs_nil]
    case isFalse hemp =>
      simp [List.flatten_append, stripAllWs_append, stripAllWs_joinSp,
        stripAllWs_nil]
  | cons s rest ih =>
    intro chunks cur curLen hss hlen
    simp only [chunkLoop]
    split
    case isTrue hover =>
      split
      case isTrue hemp =>
        have hcur : cur = [] := by simpa using hemp
        rw [hcur] at hlen
        simp at hlen
        have hle := hss s (List.mem_cons_self _ _)
        omega
      case isFalse hemp =>
        rw [ih (chunks ++ [joinSp cur]) [s] (tok s)
          (fun q hq => hss q (List.mem_cons_of_mem _ hq)) (by simp)]
        simp [List.flatten_append, List.flatten_cons, stripAllWs_append,
          stripAllWs_joinSp, List.append_assoc]
    case isFalse hfit =>
      rw [ih chunks (cur ++ [s]) (curLen + tok s)
        (fun q hq => hss q (List.mem_cons_of_mem _ hq)) ?_]
      · simp [List.flatten_append, List.flatten_cons, stripAllWs_append,
          List.append_assoc]
      · rw [List.map_append, List.sum_append]
        simp only [List.map_cons, List.map_nil, List.sum_cons, List.sum_nil]
        omega

theorem sentSplit_content_both :
    ∀ l : List Char,
      (∀ cur : List Char, stripAllWs (List.flatten (sentSplitGo cur l)) =
        stripAllWs cur.reverse ++ stripAllWs l) ∧
      stripAllWs (List.flatten (sentSplitSkip l)) = stripAllWs l := by
  intro l
  induction l with
  | nil =>
    constructor
    · intro cur
      show stripAllWs (List.flatten [cur.reverse]) = _
      simp [stripAllWs_nil]
    · show stripAllWs (List.flatten [[]]) = _
      simp [stripAllWs_nil]
  | cons c rest ih =>
    obtain ⟨ihGo, ihSkip⟩ := ih
    constructor
    · intro cur
      by_cases hks : (isPyWs c && sentEnd cur) = true
      · have hstep : sentSplitGo cur (c :: rest) = cur.reverse :: sentSplitSkip rest := by
          simp only [sentSplitGo]
          rw [if_pos hks]
        rw [hstep, List.flatten_cons, stripAllWs_append, ihSkip]
        have hc : isPyWs c = true := by
          rw [Bool.and_eq_true] at hks
          exact hks.1
        have hcr : stripAllWs (c :: rest) = stripAllWs rest := by
          simp [stripAllWs, hc]
        rw [hcr]
      · have hstep : sentSplitGo cur (c :: rest) = sentSplitGo (c :: cur) rest := by
          simp only [sentSplitGo]
          rw [if_neg hks]
        rw [hstep, ihGo (c :: cur), List.reverse_cons, stripAllWs_append]
        have hcr : stripAllWs (c :: rest) = stripAllWs [c] ++ stripAllWs rest :=
          stripAllWs_append [c] rest
        rw [hcr, List.append_assoc]
    · by_cases hc : isPyWs c = true
      · have hstep : sentSplitSkip (c :: rest) = sentSplitSkip rest := by
          simp only [sentSplitSkip]
          rw [if_pos hc]
        rw [hstep, ihSkip]
        simp [stripAllWs, hc]
      · have hstep : sentSplitSkip (c :: rest) = sentSplitGo [c] rest := by
          simp only [sentSplitSkip]
          rw [if_neg hc]
        rw [hstep, ihGo [c]]
        have hcr : stripAllWs (c :: rest) = stripAllWs [c] ++ stripAllWs rest :=
          stripAllWs_append [c] rest
        rw [hcr]
        rfl

theorem sentSplit_content (text : List Char) :
    stripAllWs (List.flatten (sentSplit text)) = stripAllWs text := by
  have h := (sentSplit_content_both text).1 []
  simpa [sentSplit] using h

/-- C2 (amended): if the whole text fits the budget it is returned as the
single unchanged chunk.  Otherwise every chunk is a space-join of
sentences whose token counts sum within the budget, or a single whole
sentence (emitted untruncated even when its own token count exceeds the
budget, which happens when it arrives while the running chunk is
non-empty), or the 500-character truncation of a budget-exceeding
sentence.  Chunk concatenation, ignoring whitespace, reconstructs the
original text whenever every individual sentence fits the budget (hence
whenever no truncation can occur). -/
theorem chunk_text_amended (tokFull tok : List Char → Nat) (B : Nat)
    (text : List Char) :
    (tokFull text ≤ B → chunk_text true tokFull tok B text = [text]) ∧
    (B < tokFull text → ∀ c ∈ chunk_text true tokFull tok B text,
      (∃ g, g ≠ [] ∧ c = joinSp g ∧ (g.map tok).sum ≤ B) ∨
      (∃ s ∈ sentSplit text, c = s) ∨
      (∃ s ∈ sentSplit text, B < tok s ∧ c = s.take 500)) ∧
    ((∀ s ∈ sentSplit text, tok s ≤ B) →
      stripAllWs (List.flatten (chunk_text true tokFull tok B text)) =
        stripAllWs text) := by
  refine ⟨?_, ?_, ?_⟩
  · intro h
    simp [chunk_text, h]
  · intro hgt c hc
    rw [chunk_text, if_neg (by simp), if_neg (by omega)] at hc
    exact chunkLoop_mem tok B (sentSplit text) (sentSplit text) [] [] 0
      (fun s hs => hs) (by simp) (Or.inl rfl) (by simp) c hc
  · intro hall
    by_cases h : tokFull text ≤ B
    · simp [chunk_text, h]
    · rw [chunk_text, if_neg (by simp), if_neg h]
      rw [chunkLoop_content tok B (sentSplit text) [] [] 0 hall (by simp)]
      simp [sentSplit_content, stripAllWs_nil]

theorem chunk_text_amended_witness :
    chunk_text true wordTok wordTok 10 "a b.".data = ["a b.".data] ∧
    stripAllWs (List.flatten (chunk_text true wordTok wordTok 2 "a b. c d.".data)) =
      stripAllWs "a b. c d.".data :=
  ⟨(chunk_text_amended wordTok wordTok 10 "a b.".data).1 (by decide),
   (chunk_text_amended wordTok wordTok 2 "a b. c d.".data).2.2 (by decide)⟩

set_option maxHeartbeats 2000000 in
set_option maxRecDepth 100000 in
/-- C2 counterexample to the claim as stated: with a word-count tokenizer
and budget 2, the input made of an oversized first sentence, a small
middle sentence and an oversized last sentence violates the claim — the
first oversized sentence is truncated to 500 characters (so concatenation
no longer reconstructs the text), and the last oversized sentence is
emitted as a whole untruncated chunk exceeding the budget. -/
theorem chunk_text_counterexample : ¬ C2ClaimAt wordTok wordTok 2 cexText := by
  intro h
  have h3 := h.2.2
  revert h3
  decide

end Analyzer

namespace Enhancer

/-- C3 (code-bug evidence): a `TextEnhancer` built with
`max_cache_size = 1` stores the bound but, after two enhancements of
distinct texts, holds two cached entries — no eviction code exists, so the
bound is never enforced. -/
theorem cache_unbounded_at_size_one :
    (initState 1).cacheSize = 1 ∧
    ((make_professional (fun p _ => p) (8/10) "b".data
        (make_professional (fun p _ => p) (8/10) "a".data (initState 1)).2).2).cache.length
      = 2 := by
  constructor
  · rfl
  · rfl

theorem lookup_append_singleton (l : List (List Char × List Char)) (k v : List Char)
    (h : l.lookup k = none) : (l ++ [(k, v)]).lookup k = some v := by
  induction l with
  | nil => simp [List.lookup]
  | cons p t ih =>
    obtain ⟨a, b⟩ := p
    by_cases hk : (k == a) = true
    · simp [List.lookup, hk] at h
    · simp only [List.cons_append, List.lookup, hk, Bool.false_eq_true, if_false] at h ⊢
      exact ih h

theorem cachedEnhance_second (gen gen₂ : Gen) (temp temp₂ : ℚ)
    (key prompt prompt₂ : List Char) (st : EnhState) :
    cachedEnhance gen₂ temp₂ key prompt₂ (cachedEnhance gen temp key prompt st).2 =
      ((cachedEnhance gen temp key prompt st).1,
       { (cachedEnhance gen temp key prompt st).2 with
           hits := (cachedEnhance gen temp key prompt st).2.hits + 1 }) := by
  cases h : cacheLookup st key with
  | some v =>
    have h₂ : cacheLookup { st with hits := st.hits + 1 } key = some v := h
    simp only [cachedEnhance, h, h₂]
  | none =>
    have h₂ : cacheLookup
        { st with cache := st.cache ++ [(key, gen prompt temp)]
                  total := st.total + 1 } key = some (gen prompt temp) := by
      simp only [cacheLookup] at h ⊢
      exact lookup_append_singleton _ _ _ h
    simp only [cachedEnhance, h, h₂]

/-- C5: on one `TextEnhancer` instance, a second `make_professional` call
with the same text returns exactly the first call's output, bumps the
cache-hit counter by one, and leaves the cache and the
`total_enhancements` counter untouched — for any generator and
temperature on the second call, so no generation is performed; and the
cache key, a stable hash of `(text, style, context)`, distinguishes
distinct contexts at fixed text and style. -/
theorem enhance_cache_correct :
    (∀ (gen gen₂ : Gen) (temp temp₂ : ℚ) (text : List Char) (st : EnhState),
      (make_professional gen₂ temp₂ text (make_professional gen temp text st).2).1 =
        (make_professional gen temp text st).1 ∧
      (make_professional gen₂ temp₂ text (make_professional gen temp text st).2).2.hits =
        (make_professional gen temp text st).2.hits + 1 ∧
      (make_professional gen₂ temp₂ text (make_professional gen temp text st).2).2.cache =
        (make_professional gen temp text st).2.cache ∧
      (make_professional gen₂ temp₂ text (make_professional gen temp text st).2).2.total =
        (make_professional gen temp text st).2.total) ∧
    (∀ text style c₁ c₂ : List Char, c₁ ≠ c₂ →
      get_cache_key text style c₁ ≠ get_cache_key text style c₂) := by
  constructor
  · intro gen gen₂ temp temp₂ text st
    unfold make_professional
    rw [cachedEnhance_second]
    exact ⟨rfl, rfl, rfl, rfl⟩
  · intro text style c₁ c₂ hne heq
    apply hne
    unfold get_cache_key at heq
    simpa using heq

theorem ewcStep_eq (gen : Gen) (style : Style) (temp : ℚ) (text : List Char)
    (st : EnhState) :
    ewcStep gen style temp text st =
      cachedEnhance gen temp (get_cache_key text style.value [])
        (promptTemplate style text) st := by
  cases style <;> rfl

theorem cachedEnhance_hit (gen : Gen) (temp : ℚ) (key prompt v : List Char)
    (st : EnhState) (h : cacheLookup st key = some v) :
    cachedEnhance gen temp key prompt st = (v, { st with hits := st.hits + 1 }) := by
  simp [cachedEnhance, h]

theorem cachedEnhance_lookup_after (gen : Gen) (temp : ℚ) (key prompt : List Char)
    (st : EnhState) :
    cacheLookup (cachedEnhance gen temp key prompt st).2 key =
      some (cachedEnhance gen temp key prompt st).1 := by
  cases h : cacheLookup st key with
  | some v =>
    have h₂ : cacheLookup { st with hits := st.hits + 1 } key = some v := h
    simp [cachedEnhance, h, h₂]
  | none =>
    simp only [cachedEnhance, h]
    show cacheLookup _ _ = _
    simp only [cacheLookup]
    exact lookup_append_singleton _ _ _ h

theorem ewcLoop_const (gen : Gen) (style : Style) (text v : List Char) :
    ∀ (k i : Nat) (st : EnhState),
      cacheLookup st (get_cache_key text style.value []) = some v →
      (ewcLoop gen style text k i st).1 = List.replicate k v := by
  intro k
  induction k with
  | zero => intro i st _; rfl
  | succ k ih =>
    intro i st h
    simp only [ewcLoop, ewcStep_eq]
    rw [cachedEnhance_hit gen _ _ _ v st h]
    simp only [List.replicate]
    exact congrArg (v :: ·) (ih (i + 1) { st with hits := st.hits + 1 } h)

/-- C10 (implicit): within one `enhance_with_confidence` call with at
least two variants, every variant is the same string — the first variant
is cached under a key built only from text and style (no temperature), so
each later variant generation is a cache hit returning the first result,
and the per-variant temperature variation has no effect. -/
theorem ewc_variants_identical (gen : Gen) (style : Style) (text : List Char)
    (st : EnhState) (n : Nat) (hn : 2 ≤ n) :
    ewcVariants gen style text n st =
      List.replicate n (ewcStep gen style (7/10) text st).1 := by
  obtain ⟨k, rfl⟩ : ∃ k, n = k + 1 := ⟨n - 1, by omega⟩
  unfold ewcVariants
  simp only [ewcLoop]
  have htemp : (7/10 : ℚ) + (0 : Nat) * (1/10) = 7/10 := by norm_num
  rw [htemp]
  have hafter : cacheLookup (ewcStep gen style (7/10) text st).2
      (get_cache_key text style.value []) =
      some (ewcStep gen style (7/10) text st).1 := by
    rw [ewcStep_eq]
    exact cachedEnhance_lookup_after _ _ _ _ _
  simp only [List.replicate]
  exact congrArg ((ewcStep gen style (7/10) text st).1 :: ·)
    (ewcLoop_const gen style text _ k 1 _ hafter)

theorem ewc_variants_identical_witness :
    (2 : Nat) ≤ 3 ∧
    ewcVariants (fun p _ => p) .professional "hi".data 3 (initState 9) =
      List.replicate 3
        (ewcStep (fun p _ => p) .professional (7/10) "hi".data (initState 9)).1 :=
  ⟨by decide, ewc_variants_identical (fun p _ => p) .professional "hi".data
    (initState 9) 3 (by decide)⟩

theorem ewcLoop_length (gen : Gen) (style : Style) (text : List Char) :
    ∀ (k i : Nat) (st : EnhState), (ewcLoop gen style text k i st).1.length = k := by
  intro k
  induction k with
  | zero => intro i st; rfl
  | succ k ih =>
    intro i st
    simp only [ewcLoop, List.length_cons]
    rw [ih]

theorem scoreVariant_nonneg (text v : List Char) : 0 ≤ scoreVariant text v := by
  unfold scoreVariant
  have h1 : (0 : ℚ) ≤ max 0 (100 - |(v.length : ℚ) - (text.length : ℚ) * (3/2)|) :=
    le_max_left _ _
  have h2 : (0 : ℚ) ≤ 10 * (((professional_words.filter
      (fun w => containsSub (lowerL w) (lowerL v))).length : ℚ)) := by positivity
  have h3 : (0 : ℚ) ≤ (if h : v ≠ [] then (if (v.head h).isUpper then (5:ℚ) else 0) else 0) := by
    split <;> try split
    all_goals norm_num
  have h4 : (0 : ℚ) ≤ (match v.getLast? with
      | some c => if c = '.' ∨ c = '!' then (5:ℚ) else 0
      | none => 0) := by
    rcases v.getLast? with _ | c
    · norm_num
    · dsimp only
      split <;> norm_num
  linarith

theorem foldl_max_le_init (l : List ℚ) : ∀ a : ℚ, a ≤ l.foldl max a := by
  induction l with
  | nil => intro a; simp
  | cons x xs ih =>
    intro a
    exact le_trans (le_max_left a x) (ih (max a x))

theorem le_foldl_max_of_mem (l : List ℚ) : ∀ (a x : ℚ), x ∈ l → x ≤ l.foldl max a := by
  induction l with
  | nil => intro a x hx; exact absurd hx (List.not_mem_nil x)
  | cons y ys ih =>
    intro a x hx
    rcases List.mem_cons.1 hx with rfl | hx
    · exact le_trans (le_max_right a x) (foldl_max_le_init ys (max a x))
    · exact ih (max a y) x hx

theorem foldl_max_mem (l : List ℚ) : ∀ a : ℚ, l.foldl max a = a ∨ l.foldl max a ∈ l := by
  induction l with
  | nil => intro a; exact Or.inl rfl
  | cons y ys ih =>
    intro a
    rcases ih (max a y) with h | h
    · rcases max_choice a y with h₂ | h₂
      · exact Or.inl (by rw [List.foldl_cons, h, h₂])
      · refine Or.inr ?_
        rw [List.foldl_cons, h, h₂]
        exact List.mem_cons_self _ _
    · exact Or.inr (List.mem_cons_of_mem _ h)

theorem listMax_mem (x : ℚ) (xs : List ℚ) : listMax (x :: xs) ∈ x :: xs := by
  have hrfl : listMax (x :: xs) = xs.foldl max x := rfl
  rw [hrfl]
  rcases foldl_max_mem xs x with h | h
  · rw [h]; exact List.mem_cons_self _ _
  · exact List.mem_cons_of_mem _ h

theorem le_listMax (x : ℚ) (xs : List ℚ) : ∀ y ∈ x :: xs, y ≤ listMax (x :: xs) := by
  intro y hy
  rcases List.mem_cons.1 hy with rfl | hy
  · exact foldl_max_le_init xs y
  · exact le_foldl_max_of_mem xs x y hy

/-- C4: with at least one variant requested, `enhance_with_confidence`
returns a pair whose text is one of the generated variants (never a
blended string) with maximal heuristic score among them, and whose
confidence lies in `[0, 1]`. -/
theorem enhance_with_confidence_spec (gen : Gen) (style : Style) (text : List Char)
    (n : Nat) (st : EnhState) (hn : 1 ≤ n) :
    ∃ best conf,
      (enhance_with_confidence gen style text n st).1 = some (best, conf) ∧
      best ∈ ewcVariants gen style text n st ∧
      (∀ v ∈ ewcVariants gen style text n st,
        scoreVariant text v ≤ scoreVariant text best) ∧
      0 ≤ conf ∧ conf ≤ 1 := by
  obtain ⟨v, vs, hvvs⟩ : ∃ v vs, (ewcLoop gen style text n 0 st).1 = v :: vs := by
    cases hq : (ewcLoop gen style text n 0 st).1 with
    | nil =>
      have := ewcLoop_length gen style text n 0 st
      rw [hq] at this
      simp at this
      omega
    | cons v vs => exact ⟨v, vs, rfl⟩
  have hvar : ewcVariants gen style text n st = v :: vs := hvvs
  set scores := (v :: vs).map (scoreVariant text) with hscores
  set m := listMax scores with hm
  have hmmem : m ∈ scores := by
    rw [hscores]
    simp only [List.map_cons]
    exact listMax_mem _ _
  have hex : ∃ x ∈ scores, (fun s => decide (s = m)) x = true :=
    ⟨m, hmmem, by simp⟩
  have hidx : scores.findIdx (fun s => s = m) < scores.length :=
    List.findIdx_lt_length_of_exists hex
  have hslen : scores.length = (v :: vs).length := by
    rw [hscores]; exact List.length_map _ _
  have hidx₂ : scores.findIdx (fun s => s = m) < (v :: vs).length := by
    rw [← hslen]; exact hidx
  set idx := scores.findIdx (fun s => s = m) with hidxdef
  have hbest : (v :: vs).getD idx [] = (v :: vs).get ⟨idx, hidx₂⟩ :=
    List.getD_eq_get _ _ hidx₂
  have hbestscore : scoreVariant text ((v :: vs).get ⟨idx, hidx₂⟩) = m := by
    have hfound := @List.findIdx_get _ (fun s => decide (s = m)) scores hidx
    have heq : scores.get ⟨idx, hidx⟩ = m := of_decide_eq_true hfound
    rw [← heq]
    simp only [List.get_eq_getElem, hscores, List.getElem_map]
  refine ⟨(v :: vs).getD idx [], min 100 (m / 2) / 100, ?_, ?_, ?_, ?_, ?_⟩
  · show (enhance_with_confidence gen style text n st).1 = _
    unfold enhance_with_confidence
    simp only [hvvs]
  · rw [hvar, hbest]
    exact List.get_mem _ _ _
  · intro w hw
    rw [hvar] at hw
    rw [hbest, hbestscore]
    exact le_listMax _ _ _ (List.mem_map_of_mem (scoreVariant text) hw)
  · have hm0 : 0 ≤ m := by
      rw [hscores] at hmmem
      obtain ⟨w, _, hweq⟩ := List.mem_map.1 hmmem
      rw [← hweq]
      exact scoreVariant_nonneg _ _
    have : (0 : ℚ) ≤ min 100 (m / 2) := le_min (by norm_num) (by linarith)
    positivity
  · have : min 100 (m / 2) ≤ 100 := min_le_left _ _
    rw [div_le_one (by norm_num : (0:ℚ) < 100)]
    exact this

theorem enhance_with_confidence_spec_witness :
    (enhance_with_confidence (fun p _ => p) .professional "hi".data 3
      (initState 9)).1.isSome = true := by
  obtain ⟨best, conf, heq, -, -, -, -⟩ :=
    enhance_with_confidence_spec (fun p _ => p) .professional "hi".data 3
      (initState 9) (by decide)
  rw [heq]
  rfl

theorem enhance_cache_correct_witness :
    (make_professional (fun _ _ => "B".data) 1 "t".data
       (make_professional (fun p _ => p) (7/10) "t".data (initState 4)).2).1 =
      (make_professional (fun p _ => p) (7/10) "t".data (initState 4)).1 ∧
    get_cache_key "t".data "professional".data "a".data ≠
      get_cache_key "t".data "professional".data "b".data :=
  ⟨(enhance_cache_correct.1 _ _ _ _ _ _).1,
   enhance_cache_correct.2 _ _ _ _ (by decide)⟩

theorem isLower_toUpper_false (c : Char) : (c.toUpper).isLower = false := by
  unfold Char.toUpper
  simp only []
  by_cases h : 97 ≤ c.toNat ∧ c.toNat ≤ 122
  · rw [if_pos h]
    obtain ⟨h1, h2⟩ := h
    have hv : (c.toNat - 32).isValidChar := Or.inl (by omega)
    rw [Char.ofNat, dif_pos hv]
    unfold Char.ofNatAux Char.isLower
    rw [Bool.and_eq_false_iff]
    left
    simp only [decide_eq_false_iff_not]
    show ¬ ((97 : UInt32) ≤ _)
    rw [UInt32.le_def, BitVec.le_def]
    simp only [BitVec.toNat_ofNatLt]
    have h97 : (97 : UInt32).toBitVec.toNat = 97 := rfl
    rw [h97]
    omega
  · rw [if_neg h]
    unfold Char.isLower
    rw [Bool.and_eq_false_iff]
    by_cases h97 : 97 ≤ c.toNat
    · right
      simp only [decide_eq_false_iff_not]
      show ¬ (c.val ≤ (122 : UInt32))
      rw [UInt32.le_def, BitVec.le_def]
      have h122 : ((122 : UInt32)).toBitVec.toNat = 122 := rfl
      rw [h122]
      exact fun hle => h ⟨h97, hle⟩
    · left
      simp only [decide_eq_false_iff_not]
      show ¬ ((97 : UInt32) ≤ c.val)
      rw [UInt32.le_def, BitVec.le_def]
      have h97v : ((97 : UInt32)).toBitVec.toNat = 97 := rfl
      rw [h97v]
      exact h97

theorem termChar_cases {t : Char} (h : isTermChar t = true) :
    t = '.' ∨ t = '!' ∨ t = '?' := by
  simp only [isTermChar, Bool.or_eq_true, decide_eq_true_eq] at h
  tauto

theorem termChar_not_ws {t : Char} (h : isTermChar t = true) : isPyWs t = false := by
  rcases termChar_cases h with rfl | rfl | rfl <;> decide

theorem termChar_toUpper {t : Char} (h : isTermChar t = true) : t.toUpper = t := by
  rcases termChar_cases h with rfl | rfl | rfl <;> decide

theorem getLast?_dropWhile {p : Char → Bool} {l : List Char} {t : Char}
    (h : l.getLast? = some t) (ht : p t = false) :
    (l.dropWhile p).getLast? = some t := by
  induction l with
  | nil => simp at h
  | cons c rest ih =>
    by_cases hc : p c = true
    · rw [List.dropWhile_cons, if_pos hc]
      cases rest with
      | nil =>
        simp at h
        rw [h] at hc
        rw [ht] at hc
        exact absurd hc (by simp)
      | cons d rest' =>
        rw [List.getLast?_cons_cons] at h
        exact ih h
    · rw [List.dropWhile_cons, if_neg hc]
      exact h

theorem getLast?_drop_of_ne_nil {l : List Char} {k : Nat} (hne : l.drop k ≠ []) :
    (l.drop k).getLast? = l.getLast? := by
  conv_rhs => rw [← List.take_append_drop k l]
  rw [List.getLast?_append]
  cases hd : (l.drop k).getLast? with
  | none => exact absurd (List.getLast?_eq_none_iff.1 hd) hne
  | some x => rfl

theorem stripWsEnds_getLast {l : List Char} {t : Char}
    (h : l.getLast? = some t) (hws : isPyWs t = false) :
    (stripWsEnds l).getLast? = some t := by
  unfold stripWsEnds
  have h1 : (l.dropWhile isPyWs).getLast? = some t := getLast?_dropWhile h hws
  have h2 : (l.dropWhile isPyWs).reverse.head? = some t := by
    rw [List.head?_reverse]; exact h1
  obtain ⟨rest, hrest⟩ : ∃ rest, (l.dropWhile isPyWs).reverse = t :: rest := by
    cases hr : (l.dropWhile isPyWs).reverse with
    | nil => rw [hr] at h2; simp at h2
    | cons a r =>
      rw [hr] at h2
      simp at h2
      exact ⟨r, by rw [h2]⟩
  rw [hrest, List.dropWhile_cons, hws]
  simp only [Bool.false_eq_true, if_false]
  rw [← hrest, List.reverse_reverse]
  exact h1

theorem stripFixedPat_getLast {pat s : List Char} {t : Char}
    (hterm : isTermChar t = true) (hpat : pat.getLast? = some ':')
    (h : s.getLast? = some t) :
    (stripFixedPat pat s).getLast? = some t := by
  unfold stripFixedPat
  split
  case isTrue hc =>
    have hlen : pat.length ≤ s.length := by
      have hl := congrArg List.length hc
      simp only [List.length_map, List.length_take] at hl
      omega
    rcases Nat.lt_or_ge pat.length s.length with hlt | hge
    · have hne : s.drop pat.length ≠ [] := by
        intro hx
        have := List.drop_eq_nil_iff.1 hx
        omega
      exact getLast?_dropWhile (by rw [getLast?_drop_of_ne_nil hne]; exact h)
        (termChar_not_ws hterm)
    · have htake : s.take pat.length = s := List.take_of_length_le hge
      rw [htake] at hc
      have hlast := congrArg List.getLast? hc
      rw [List.getLast?_map, List.getLast?_map, h, hpat] at hlast
      simp only [Option.map_some'] at hlast
      have ht : t.toLower = ':' := by
        have : Char.toLower ':' = ':' := by decide
        rw [← this]
        exact Option.some.inj hlast
      rcases termChar_cases hterm with rfl | rfl | rfl <;> exact absurd ht (by decide)
  case isFalse _ => exact h

theorem scanToColon_decomp :
    ∀ (l rest : List Char), scanToColon l = some rest →
      ∃ pre, l = pre ++ ':' :: rest := by
  intro l
  induction l with
  | nil => intro rest h; exact absurd h (by simp [scanToColon])
  | cons c l' ih =>
    intro rest h
    unfold scanToColon at h
    split at h
    · exact ⟨[], by rename_i hc; rw [hc]; cases h; rfl⟩
    · split at h
      · exact absurd h (by simp)
      · obtain ⟨pre, hpre⟩ := ih rest h
        exact ⟨c :: pre, by rw [List.cons_append, hpre]⟩

theorem stripPat7_getLast {s : List Char} {t : Char}
    (hterm : isTermChar t = true) (h : s.getLast? = some t) :
    (stripPat7 s).getLast? = some t := by
  simp only [stripPat7]
  split
  case isFalse _ => exact h
  case isTrue _ =>
    split
    case isTrue _ => exact h
    case isFalse _ =>
      split
      case isFalse _ => exact h
      case isTrue _ =>
        split
        case h_2 _ => exact h
        case h_1 rest hscan =>
          have hzne : ((s.drop 5).drop
              ((s.drop 5).takeWhile isWordChar).length).drop
              " professional, enhance this text".data.length ≠ [] := by
            intro hz0
            rw [hz0] at hscan
            exact absurd hscan (by simp [scanToColon])
          have hz2 : (s.drop 5).drop ((s.drop 5).takeWhile isWordChar).length ≠ [] := by
            intro hx
            apply hzne
            rw [hx]
            simp
          have hz1 : s.drop 5 ≠ [] := by
            intro hx
            apply hz2
            rw [hx]
            simp
          have hzlast : (((s.drop 5).drop
              ((s.drop 5).takeWhile isWordChar).length).drop
              " professional, enhance this text".data.length).getLast? = some t := by
            rw [getLast?_drop_of_ne_nil hzne, getLast?_drop_of_ne_nil hz2,
              getLast?_drop_of_ne_nil hz1]
            exact h
          obtain ⟨pre, hpre⟩ := scanToColon_decomp _ rest hscan
          rw [hpre] at hzlast
          cases hr : rest with
          | nil =>
            rw [hr, List.getLast?_concat] at hzlast
            have hcolon : ':' = t := Option.some.inj hzlast
            rw [← hcolon] at hterm
            exact absurd hterm (by decide)
          | cons d rest' =>
            rw [hr] at hzlast
            rw [List.getLast?_append_of_ne_nil _ (by simp)] at hzlast
            rw [List.getLast?_cons_cons] at hzlast
            exact getLast?_dropWhile hzlast (termChar_not_ws hterm)

theorem foldStrip_getLast {pats : List (List Char)} {t : Char}
    (hterm : isTermChar t = true)
    (hpats : ∀ p ∈ pats, p.getLast? = some ':') :
    ∀ s, s.getLast? = some t →
      (pats.foldl (fun acc q => stripFixedPat q acc) s).getLast? = some t := by
  induction pats with
  | nil => intro s h; exact h
  | cons q qs ih =>
    intro s h
    rw [List.foldl_cons]
    exact ih (fun q₂ hq => hpats q₂ (List.mem_cons_of_mem _ hq)) _
      (stripFixedPat_getLast hterm (hpats q (List.mem_cons_self _ _)) h)

theorem stripPrompts_getLast {s : List Char} {t : Char}
    (hterm : isTermChar t = true) (h : s.getLast? = some t) :
    (stripPrompts s).getLast? = some t := by
  unfold stripPrompts
  exact foldStrip_getLast hterm (by decide) _
    (stripPat7_getLast hterm (foldStrip_getLast hterm (by decide) _ h))

theorem colonSplitStage_getLast {s : List Char} {t : Char}
    (hterm : isTermChar t = true) (h : s.getLast? = some t) :
    (colonSplitStage s).getLast? = some t := by
  unfold colonSplitStage
  split
  case isFalse _ => exact h
  case isTrue _ =>
    have hrev : s.reverse.head? = some t := by rw [List.head?_reverse]; exact h
    obtain ⟨rest, hrest⟩ : ∃ rest, s.reverse = t :: rest := by
      cases hr : s.reverse with
      | nil => rw [hr] at hrev; exact absurd hrev (by simp)
      | cons a r =>
        rw [hr] at hrev
        simp at hrev
        exact ⟨r, by rw [hrev]⟩
    have hne : (t ≠ ':') := by
      rcases termChar_cases hterm with rfl | rfl | rfl <;> decide
    rw [hrest, List.takeWhile_cons]
    rw [if_pos (by simp [hne])]
    apply stripWsEnds_getLast _ (termChar_not_ws hterm)
    rw [List.reverse_cons, List.getLast?_concat]

theorem mem_subWordF {w r : List Char} {t : Char} (hw : w ≠ [])
    (hl : t.toLower ∉ w.map Char.toLower) :
    ∀ (fuel : Nat) (prevW : Bool) (s : List Char),
      t ∈ s → t ∈ subWordF w r fuel prevW s := by
  intro fuel
  induction fuel with
  | zero =>
    intro prevW s hts
    cases s with
    | nil => exact absurd hts (List.not_mem_nil t)
    | cons c rest => exact hts
  | succ f ih =>
    intro prevW s hts
    cases s with
    | nil => exact absurd hts (List.not_mem_nil t)
    | cons c rest =>
      obtain ⟨w0, w', rfl⟩ : ∃ w0 w', w = w0 :: w' := by
        cases w with
        | nil => exact absurd rfl hw
        | cons a b => exact ⟨a, b, rfl⟩
      by_cases hcond : (!prevW && matchesCI (w0 :: w') (c :: rest) &&
          nextNonWord (w0 :: w') (c :: rest)) = true
      · have hres : subWordF (w0 :: w') r (f + 1) prevW (c :: rest) =
            r ++ subWordF (w0 :: w') r f true
              (rest.drop ((w0 :: w').length - 1)) := by
          simp only [subWordF]
          rw [if_pos hcond]
        rw [hres]
        rw [Bool.and_eq_true, Bool.and_eq_true] at hcond
        obtain ⟨⟨-, hmatch⟩, -⟩ := hcond
        unfold matchesCI at hmatch
        rw [decide_eq_true_eq] at hmatch
        have htake : (c :: rest).take (w0 :: w').length =
            c :: rest.take w'.length := by
          simp [List.take_succ_cons]
        rw [htake] at hmatch
        simp only [List.map_cons] at hmatch
        have hc0 : c.toLower = w0.toLower := by
          injection hmatch
        have hrmap : (rest.take w'.length).map Char.toLower =
            w'.map Char.toLower := by
          injection hmatch
        rcases List.mem_cons.1 hts with rfl | htr
        · refine absurd ?_ hl
          rw [List.map_cons, ← hc0]
          exact List.mem_cons_self _ _
        · rw [← List.take_append_drop w'.length rest] at htr
          rcases List.mem_append.1 htr with htk | htd
          · have hmm : t.toLower ∈ (rest.take w'.length).map Char.toLower :=
              List.mem_map_of_mem _ htk
            rw [hrmap] at hmm
            refine absurd ?_ hl
            rw [List.map_cons]
            exact List.mem_cons_of_mem _ hmm
          · have hdrop : (w0 :: w').length - 1 = w'.length := by simp
            rw [hdrop]
            exact List.mem_append_right _ (ih true _ htd)
      · have hres : subWordF (w0 :: w') r (f + 1) prevW (c :: rest) =
            c :: subWordF (w0 :: w') r f (isWordChar c) rest := by
          simp only [subWordF]
          rw [if_neg hcond]
        rw [hres]
        rcases List.mem_cons.1 hts with rfl | htr
        · exact List.mem_cons_self _ _
        · exact List.mem_cons_of_mem _ (ih _ rest htr)

theorem mem_applyReplacements_of_table {t : Char} :
    ∀ (tbl : List (List Char × List Char)),
      (∀ q ∈ tbl, q.1 ≠ [] ∧ t.toLower ∉ q.1.map Char.toLower) →
      ∀ s, t ∈ s → t ∈ tbl.foldl (fun acc q => subWordCI q.1 q.2 acc) s := by
  intro tbl
  induction tbl with
  | nil => intro _ s h; exact h
  | cons q qs ih =>
    intro hq s h
    rw [List.foldl_cons]
    refine ih (fun q₂ hq₂ => hq q₂ (List.mem_cons_of_mem _ hq₂)) _ ?_
    obtain ⟨hne, hnl⟩ := hq q (List.mem_cons_self _ _)
    exact mem_subWordF hne hnl _ _ _ h

theorem mem_applyReplacements {t : Char} (hterm : isTermChar t = true)
    {s : List Char} (h : t ∈ s) : t ∈ applyReplacements s := by
  unfold applyReplacements
  apply mem_applyReplacements_of_table _ _ _ h
  rcases termChar_cases hterm with rfl | rfl | rfl <;> decide

theorem prefixStage_exists_pre (lt res : List Char) :
    ∃ pre, prefixStage lt res = pre ++ res := by
  unfold prefixStage
  repeat' split
  all_goals first
    | exact ⟨[], rfl⟩
    | exact ⟨"Engineer comprehensive ".data, rfl⟩
    | exact ⟨"Optimize ".data, rfl⟩
    | exact ⟨"Develop strategic ".data, rfl⟩
    | exact ⟨"Remediate critical ".data, rfl⟩
    | exact ⟨"Architect and ".data, rfl⟩

theorem mem_prefixStage {t : Char} (lt res : List Char) (h : t ∈ res) :
    t ∈ prefixStage lt res := by
  obtain ⟨pre, hpre⟩ := prefixStage_exists_pre lt res
  rw [hpre]
  exact List.mem_append_right _ h

theorem mem_capStage {t : Char} {res : List Char} (h : t ∈ res)
    (hup : t.toUpper = t) : t ∈ capStage res := by
  cases res with
  | nil => exact absurd h (List.not_mem_nil t)
  | cons c rest =>
    rcases List.mem_cons.1 h with rfl | hr
    · show t ∈ t.toUpper :: rest
      rw [hup]
      exact List.mem_cons_self _ _
    · exact List.mem_cons_of_mem _ hr

theorem containsSub_singleton {t : Char} :
    ∀ l : List Char, t ∈ l → containsSub [t] l = true := by
  intro l
  induction l with
  | nil => intro h; exact absurd h (List.not_mem_nil t)
  | cons c rest ih =>
    intro h
    unfold containsSub
    rw [Bool.or_eq_true]
    rcases List.mem_cons.1 h with rfl | hr
    · left; simp [List.isPrefixOf]
    · right; exact ih hr

theorem suffixStage_eq_of_term_mem {t : Char} (hterm : isTermChar t = true)
    (lt res : List Char) (h : t ∈ res) : suffixStage lt res = res := by
  have hany : suffixEndings.any (fun e => containsSub e res) = true := by
    rw [List.any_eq_true]
    refine ⟨[t], ?_, containsSub_singleton _ h⟩
    rcases termChar_cases hterm with rfl | rfl | rfl <;> decide
  simp only [suffixStage, hany, Bool.not_true, Bool.and_false, Bool.false_eq_true,
    if_false]

theorem fallback_on_terminal (s : List Char) (t : Char)
    (hterm : isTermChar t = true) (h : s.getLast? = some t) :
    fallback_enhancement s = fallbackNoSuffix s := by
  have hX : (colonSplitStage (stripPrompts s)).getLast? = some t :=
    colonSplitStage_getLast hterm (stripPrompts_getLast hterm h)
  have hmem : t ∈ capStage (prefixStage (lowerL (colonSplitStage (stripPrompts s)))
      (applyReplacements (colonSplitStage (stripPrompts s)))) :=
    mem_capStage
      (mem_prefixStage _ _
        (mem_applyReplacements hterm (List.mem_of_getLast?_eq_some hX)))
      (termChar_toUpper hterm)
  show periodStage (suffixStage (lowerL (colonSplitStage (stripPrompts s)))
      (capStage (prefixStage (lowerL (colonSplitStage (stripPrompts s)))
        (applyReplacements (colonSplitStage (stripPrompts s)))))) =
    periodStage (capStage (prefixStage (lowerL (colonSplitStage (stripPrompts s)))
      (applyReplacements (colonSplitStage (stripPrompts s)))))
  rw [suffixStage_eq_of_term_mem hterm _ _ hmem]

theorem chooseSuffix_ne_nil (lt : List Char) : chooseSuffix lt ≠ [] := by
  unfold chooseSuffix
  repeat' split
  all_goals decide

theorem chooseSuffix_head (lt : List Char) : (chooseSuffix lt).head? = some ' ' := by
  unfold chooseSuffix
  repeat' split
  all_goals rfl

theorem suffixStage_nil (lt : List Char) : suffixStage lt [] = chooseSuffix lt := by
  have hcond : (decide (([] : List Char).length < 100) &&
      !(suffixEndings.any (fun e => containsSub e ([] : List Char)))) = true := by
    decide
  unfold suffixStage
  rw [if_pos hcond]
  rfl

theorem suffixStage_ne_nil (lt res : List Char) : suffixStage lt res ≠ [] := by
  unfold suffixStage
  split
  case isTrue _ =>
    intro hx
    exact chooseSuffix_ne_nil lt (List.append_eq_nil.1 hx).2
  case isFalse hcond =>
    intro hres
    rw [hres] at hcond
    exact hcond (by decide)

theorem periodStage_ne_nil {res : List Char} (h : res ≠ []) :
    periodStage res ≠ [] := by
  unfold periodStage
  cases hg : res.getLast? with
  | none => exact h
  | some c =>
    show ¬(if isTermChar c then res else res ++ ['.']) = []
    split
    · exact h
    · simp

theorem periodStage_term {res : List Char} (h : res ≠ []) :
    ∃ t, (periodStage res).getLast? = some t ∧ isTermChar t = true := by
  unfold periodStage
  cases hg : res.getLast? with
  | none => exact absurd (List.getLast?_eq_none_iff.1 hg) h
  | some c =>
    show ∃ t, (if isTermChar c then res else res ++ ['.']).getLast? = some t ∧
      isTermChar t = true
    by_cases hc : isTermChar c = true
    · rw [if_pos hc]
      exact ⟨c, hg, hc⟩
    · rw [if_neg hc]
      exact ⟨'.', List.getLast?_concat _, by decide⟩

theorem head?_append_left {l l' : List Char} {c : Char} (h : l.head? = some c) :
    (l ++ l').head? = some c := by
  cases l with
  | nil => exact absurd h (by simp)
  | cons a rest => simpa using h

theorem suffixStage_head {lt res : List Char} {c : Char} (h : res.head? = some c) :
    (suffixStage lt res).head? = some c := by
  unfold suffixStage
  split
  · exact head?_append_left h
  · exact h

theorem periodStage_head {res : List Char} {c : Char} (h : res.head? = some c) :
    (periodStage res).head? = some c := by
  unfold periodStage
  cases hg : res.getLast? with
  | none => exact h
  | some d =>
    show (if isTermChar d then res else res ++ ['.']).head? = some c
    split
    · exact h
    · exact head?_append_left h

/-- C8 (amended): for every non-empty input the fallback enhancement's
output is non-empty, never begins with a lowercase letter (the first
character is upper-cased, a no-op on non-letters), and ends in terminal
punctuation; and re-applying the fallback to its own output skips the
contextual-suffix stage entirely (the run equals the pipeline with the
suffix stage removed), so no additional suffix is ever appended. -/
theorem fallback_enhancement_amended (p : List Char) (hp : p ≠ []) :
    fallback_enhancement p ≠ [] ∧
    (∀ c, (fallback_enhancement p).head? = some c → c.isLower = false) ∧
    (∃ t, (fallback_enhancement p).getLast? = some t ∧ isTermChar t = true) ∧
    fallback_enhancement (fallback_enhancement p) =
      fallbackNoSuffix (fallback_enhancement p) := by
  have hfb : fallback_enhancement p =
      periodStage (suffixStage (lowerL (colonSplitStage (stripPrompts p)))
        (capStage (prefixStage (lowerL (colonSplitStage (stripPrompts p)))
          (applyReplacements (colonSplitStage (stripPrompts p)))))) := rfl
  have hWne : suffixStage (lowerL (colonSplitStage (stripPrompts p)))
      (capStage (prefixStage (lowerL (colonSplitStage (stripPrompts p)))
        (applyReplacements (colonSplitStage (stripPrompts p))))) ≠ [] :=
    suffixStage_ne_nil _ _
  have hne : fallback_enhancement p ≠ [] := by
    rw [hfb]
    exact periodStage_ne_nil hWne
  have hterm : ∃ t, (fallback_enhancement p).getLast? = some t ∧
      isTermChar t = true := by
    rw [hfb]
    exact periodStage_term hWne
  refine ⟨hne, ?_, hterm, ?_⟩
  · intro c hc
    cases hY : prefixStage (lowerL (colonSplitStage (stripPrompts p)))
        (applyReplacements (colonSplitStage (stripPrompts p))) with
    | nil =>
      have hhead : (fallback_enhancement p).head? = some ' ' := by
        rw [hfb, hY]
        apply periodStage_head
        have hcap : capStage ([] : List Char) = [] := rfl
        rw [hcap, suffixStage_nil]
        exact chooseSuffix_head _
      rw [hhead] at hc
      cases hc
      decide
    | cons y0 yrest =>
      have hhead : (fallback_enhancement p).head? = some y0.toUpper := by
        rw [hfb, hY]
        exact periodStage_head (suffixStage_head rfl)
      rw [hhead] at hc
      cases hc
      exact isLower_toUpper_false y0
  · obtain ⟨t, hlast, htc⟩ := hterm
    exact fallback_on_terminal _ t htc hlast

/-- C8 counterexample to the claim as stated: on the non-empty input
`"42"` the fallback output begins with the digit `'4'`, which is not an
uppercase letter. -/
theorem fallback_enhancement_counterexample :
    (fallback_enhancement "42".data).head? = some '4' ∧ '4'.isUpper = false := by
  constructor
  · rfl
  · decide

theorem fallback_enhancement_amended_witness :
    fallback_enhancement "update the file".data ≠ [] :=
  (fallback_enhancement_amended "update the file".data (by decide)).1

end Enhancer

end TaskManager
